import Mathlib

/-!
Verification of the token resegmentation core of the academic_data_mining
repository (src/preprocessing/split_tokens.py), as a shallow embedding.

The per-token pipeline of SplitTokens.fix_word_segmentation is embedded
faithfully: eligibility gate, acceptance checks on the corrected string
returned by the segmentation search, and reconstruction with original
trailing whitespace.  The segmentation search itself (symspellpy's
word_segmentation) and the tokenizer (spaCy) are external collaborators,
so the search is modelled from the specification and the tokenizer is an
abstract parameter constrained only by its losslessness guarantee.
-/

namespace Resegment

/-- Per-token attributes consumed by fix_word_segmentation, exactly the
spaCy token attributes the code reads: text, whitespace_, is_alpha,
ent_type, lemma_. -/
structure Token where
  text : String
  whitespace_ : String
  is_alpha : Bool
  ent_type : Nat
  lemma_ : String

/-- spaCy's text_with_ws: token text followed by its trailing whitespace. -/
def Token.text_with_ws (t : Token) : String :=
  t.text ++ t.whitespace_

/-- Python str.replace applied with a single-space pattern and empty
replacement: deletes every space character. -/
def removeSpaces (s : String) : String :=
  String.mk (s.data.filter fun c => c != ' ')

/-- Python str.split with no argument, on a character list: splits on runs
of whitespace and drops empty pieces. -/
def splitWsChars : List Char → List (List Char)
  | [] => []
  | [c] => if c.isWhitespace then [] else [[c]]
  | c :: d :: cs =>
    if c.isWhitespace then splitWsChars (d :: cs)
    else
      if d.isWhitespace then [c] :: splitWsChars (d :: cs)
      else
        match splitWsChars (d :: cs) with
        | [] => [[c]]
        | w :: ws => (c :: w) :: ws

/-- Python str.split with no argument. -/
def splitWs (s : String) : List String :=
  (splitWsChars s.data).map String.mk

/-- Parts joined by single spaces, the corrected_string shape produced by
symspellpy's word segmentation. -/
def joinSpaces : List String → String
  | [] => ""
  | [p] => p
  | p :: q :: ps => p ++ " " ++ joinSpaces (q :: ps)

/-- All whitespace characters removed. -/
def stripWs (s : String) : String :=
  String.mk (s.data.filter fun c => !c.isWhitespace)

/-- Frequency dictionary: word and occurrence-count pairs, the data held
by the SymSpell words table. -/
structure FreqDict where
  entries : List (String × Nat)

/-- The word-form lookup set of the dictionary (keys of sym_spell.words). -/
def dictWords (d : FreqDict) : List String :=
  d.entries.map Prod.fst

/-- Standard Levenshtein edit distance (unit costs for insertion, deletion
and substitution). -/
def editDistance (a b : List Char) : Nat :=
  levenshtein Levenshtein.defaultCost a b

/-- All partitions of a character list into one or more nonempty
contiguous pieces. -/
def stringPartitions : List Char → List (List (List Char))
  | [] => []
  | [c] => [[[c]]]
  | c :: d :: cs =>
    (stringPartitions (d :: cs)).flatMap fun p =>
      match p with
      | [] => []
      | piece :: rest => [([c] :: piece :: rest), ((c :: piece) :: rest)]

/-- Keep the better of two distance and frequency pairs: strictly smaller
distance wins, and on equal distance the higher frequency wins. -/
def betterPair (b q : Nat × Nat) : Nat × Nat :=
  if q.1 < b.1 || (q.1 == b.1 && b.2 < q.2) then q else b

/-- Modelled from the spec: the per-part nearest-dictionary-word query of
the segmentation search (symspellpy lookup, which is not part of this
repository).  Returns the minimal edit distance from the part to any
dictionary word together with the frequency of the best matching word,
ties on distance resolved toward higher frequency; none on an empty
dictionary. -/
def partBest (d : FreqDict) (p : List Char) : Option (Nat × Nat) :=
  match d.entries with
  | [] => none
  | e :: es =>
    some (es.foldl (fun b e2 => betterPair b (editDistance p e2.1.data, e2.2))
      (editDistance p e.1.data, e.2))

/-- Modelled from the spec: the composite cost of one partition, provided
every part is within the edit-distance budget of some dictionary word:
total edit distance, number of parts, and total dictionary frequency of
the chosen parts; none when some part exceeds the budget. -/
def partitionCost (d : FreqDict) (maxEd : Nat) : List (List Char) → Option (Nat × Nat × Nat)
  | [] => some (0, 0, 0)
  | p :: ps =>
    match partBest d p with
    | none => none
    | some df =>
      if df.1 ≤ maxEd then
        match partitionCost d maxEd ps with
        | none => none
        | some k => some (df.1 + k.1, k.2.1 + 1, df.2 + k.2.2)
      else none

/-- The distance and frequency pair recorded for a part, taken from the
per-part query. -/
def partKey (d : FreqDict) (p : List Char) : Nat × Nat :=
  (partBest d p).getD (0, 0)

/-- Total edit distance of a partition: the sum of the per-part minimal
distances. -/
def partsDistSum (d : FreqDict) (ps : List (List Char)) : Nat :=
  (ps.map fun p => (partKey d p).1).sum

/-- Total dictionary frequency of a partition: the sum of the per-part
best frequencies. -/
def partsFreqSum (d : FreqDict) (ps : List (List Char)) : Nat :=
  (ps.map fun p => (partKey d p).2).sum

/-- Non-strict order on distance and frequency pairs: smaller distance
first, higher frequency on ties. -/
def pairLe (x y : Nat × Nat) : Prop :=
  x.1 < y.1 ∨ (x.1 = y.1 ∧ y.2 ≤ x.2)

/-- Strict comparison of composite costs: smaller total edit distance
first, then fewer parts, then higher total frequency. -/
def keyBetter (a b : Nat × Nat × Nat) : Bool :=
  a.1 < b.1 || (a.1 == b.1 && (a.2.1 < b.2.1 || (a.2.1 == b.2.1 && b.2.2 < a.2.2)))

/-- Non-strict composite-cost order: smaller total edit distance first,
then fewer parts, then higher total frequency. -/
def keyLe (a b : Nat × Nat × Nat) : Prop :=
  a.1 < b.1 ∨ (a.1 = b.1 ∧ (a.2.1 < b.2.1 ∨ (a.2.1 = b.2.1 ∧ b.2.2 ≤ a.2.2)))

/-- Modelled from the spec: the partitions of the input that stay within
the edit-distance budget, paired with their composite costs. -/
def validCandidates (d : FreqDict) (maxEd : Nat) (s : String) :
    List (List (List Char) × (Nat × Nat × Nat)) :=
  (stringPartitions s.data).filterMap fun ps =>
    match partitionCost d maxEd ps with
    | some k => some (ps, k)
    | none => none

/-- Modelled from the spec: the segmentation search contract of section
4.2 (implemented by symspellpy's word_segmentation, which is not part of
this repository).  Considers every partition of the string into
contiguous substrings each within the edit-distance budget of a
dictionary word, and returns one minimizing total edit distance, ties
broken by fewer parts and then by higher total dictionary frequency;
returns none when no partition fits the budget. -/
def segment (d : FreqDict) (maxEd : Nat) (s : String) : Option (List String) :=
  match validCandidates d maxEd s with
  | [] => none
  | c :: cs =>
    some ((cs.foldl (fun best q => if keyBetter q.2 best.2 then q else best) c).1.map String.mk)

/-- The corrected string handed back to fix_word_segmentation: the chosen
parts joined by single spaces when the search succeeds; when it fails,
symspellpy falls back to echoing unmatched input, so the original string
comes back and is then rejected by the acceptance checks. -/
def symCorrected (d : FreqDict) (maxEd : Nat) (s : String) : String :=
  match segment d maxEd s with
  | some parts => joinSpaces parts
  | none => s

/-- Python str.lower, case-folding each character. -/
def toLowerStr (s : String) : String :=
  String.mk (s.data.map Char.toLower)

/-- The eligibility gate of fix_word_segmentation: alphabetic, not part of
a named entity, and the case-folded lemma not already a dictionary word. -/
def eligible (words : List String) (t : Token) : Bool :=
  t.is_alpha && t.ent_type == 0 && !(words.contains (toLowerStr t.lemma_))

/-- One loop iteration of fix_word_segmentation: an eligible token is
segmented, and the proposal replaces the token only when the corrected
string with spaces removed equals the token text and every
space-separated part is a dictionary word; otherwise the token text with
its trailing whitespace is kept. -/
def processToken (words : List String) (seg : String → String) (t : Token) : String :=
  if eligible words t then
    if removeSpaces (seg t.text) == t.text
        && (splitWs (seg t.text)).all (fun p => words.contains p) then
      seg t.text ++ t.whitespace_
    else
      t.text_with_ws
  else
    t.text_with_ws

/-- The body of fix_word_segmentation over an already-tokenized stream:
process each token and join the emitted strings. -/
def fixTokens (words : List String) (seg : String → String) (toks : List Token) : String :=
  String.join (toks.map (processToken words seg))

/-- SplitTokens.fix_word_segmentation over a token stream, with the
dictionary supplying both the lookup set and the segmentation search. -/
def fixWordSegmentation (d : FreqDict) (maxEd : Nat) (toks : List Token) : String :=
  fixTokens (dictWords d) (symCorrected d maxEd) toks

/-- Concatenation of every token text with its trailing whitespace: the
original document text as spaCy guarantees to reproduce it. -/
def joinTextWs (toks : List Token) : String :=
  String.join (toks.map Token.text_with_ws)

/-- fix_word_segmentation on raw text, with the external tokenizer
abstracted as a function producing the token stream. -/
def fixText (tok : String → List Token) (d : FreqDict) (maxEd : Nat) (text : String) : String :=
  fixWordSegmentation d maxEd (tok text)

/-- The scenario dictionary of the spec: climate at frequency 100 and
change at frequency 80. -/
def climateDict : FreqDict :=
  ⟨[("climate", 100), ("change", 80)]⟩

/-! ## Dictionary loading and augmentation (SplitTokens init and
update_dictionary) -/

/-- Python str.split with a single-space separator, keeping empty fields,
on a character list. -/
def splitOnSpace : List Char → List (List Char)
  | [] => [[]]
  | c :: cs =>
    if c = ' ' then [] :: splitOnSpace cs
    else
      match splitOnSpace cs with
      | [] => [[c]]
      | w :: ws => (c :: w) :: ws

/-- Python int applied to a decimal digit string: some value on a
nonempty all-digit string, none otherwise. -/
def parseNat : List Char → Option Nat
  | [] => none
  | l =>
    if l.all Char.isDigit then
      some (l.foldl (fun n c => n * 10 + (c.toNat - 48)) 0)
    else none

/-- Modelled from the spec: one line of the column-delimited dictionary
resource read by symspellpy load_dictionary with term index 0 and count
index 1 (the loader is library code, not in src/).  A line yields an
entry when it has at least two space-delimited fields and the count field
parses as a number; otherwise the loader skips the line silently. -/
def parseLine (line : String) : Option (String × Nat) :=
  match splitOnSpace line.data with
  | term :: count :: _ => (parseNat count).map fun n => (String.mk term, n)
  | _ => none

/-- Modelled from the spec: symspellpy load_dictionary (library code, not
in src/): false with no entries when the resource is missing, otherwise
true with the entries of the parseable lines, malformed lines skipped. -/
def loadDictionary : Option (List String) → Bool × List (String × Nat)
  | none => (false, [])
  | some lines => (true, lines.filterMap parseLine)

/-- The observable outcome of SplitTokens init: the dictionary that was
loaded and the status line that was printed. -/
structure SplitTokensState where
  dict : List (String × Nat)
  message : String
deriving DecidableEq

/-- SplitTokens init: load the dictionary from the resource and print a
status message chosen by the boolean result; construction always
completes, whatever the load result. -/
def initSplitTokens (resource : Option (List String)) : SplitTokensState :=
  { dict := (loadDictionary resource).2,
    message :=
      if (loadDictionary resource).1 then "Dictionary loaded."
      else "Dictionary failed to loaded." }

/-- True when the word is a key of the dictionary list. -/
def hasWord (d : List (String × Nat)) (w : String) : Bool :=
  d.any fun e => e.1 == w

/-- Increment an entry by the given count when its key matches. -/
def bumpEntry (x : String) (n : Nat) (e : String × Nat) : String × Nat :=
  if e.1 == x then (e.1, e.2 + n) else e

/-- Modelled from the spec: symspellpy create_dictionary_entry (library
code, not in src/): increment the count of an existing entry, or append a
new entry with the given count. -/
def createDictionaryEntry (d : List (String × Nat)) (w : String) (n : Nat) :
    List (String × Nat) :=
  if hasWord d w then d.map (bumpEntry w n)
  else d ++ [(w, n)]

/-- SplitTokens.update_dictionary: for each alphabetic token longer than
one character, create a dictionary entry with count 1. -/
def updateDictionary (d : List (String × Nat)) (toks : List Token) :
    List (String × Nat) :=
  toks.foldl
    (fun acc t =>
      if t.is_alpha = true ∧ 1 < t.text.length then createDictionaryEntry acc t.text 1
      else acc)
    d

/-- The count stored for a word, zero when absent. -/
def getCount (d : List (String × Nat)) (w : String) : Nat :=
  match d.find? (fun e => e.1 == w) with
  | some e => e.2
  | none => 0

/-! ## Helper lemmas about strings and the split and join helpers -/

theorem join_foldl_append (xs : List String) (a b : String) :
    xs.foldl (fun r s => r ++ s) (a ++ b) = a ++ xs.foldl (fun r s => r ++ s) b := by
  induction xs generalizing b with
  | nil => rfl
  | cons x xs ih => simpa [String.append_assoc] using ih (b ++ x)

theorem join_cons (x : String) (xs : List String) :
    String.join (x :: xs) = x ++ String.join xs := by
  show xs.foldl (fun r s => r ++ s) ("" ++ x) = x ++ String.join xs
  rw [String.empty_append]
  calc xs.foldl (fun r s => r ++ s) x
      = xs.foldl (fun r s => r ++ s) (x ++ "") := by rw [String.append_empty]
    _ = x ++ String.join xs := join_foldl_append xs x ""

theorem join_nil : String.join ([] : List String) = "" := rfl

theorem stripWs_append (a b : String) : stripWs (a ++ b) = stripWs a ++ stripWs b := by
  apply String.ext
  simp [stripWs]

theorem stripWs_removeSpaces (s : String) : stripWs (removeSpaces s) = stripWs s := by
  apply String.ext
  simp only [stripWs, removeSpaces, List.filter_filter]
  refine congrArg (fun l => l) (List.filter_congr ?_)
  intro c _
  cases h : c.isWhitespace with
  | true => simp [h]
  | false =>
    have hc : (c != ' ') = true := by
      cases hq : c == ' ' with
      | true =>
        rw [beq_iff_eq] at hq
        subst hq
        simp at h
      | false => simp [bne, hq]
    simp [h, hc]

theorem removeSpaces_append (a b : String) :
    removeSpaces (a ++ b) = removeSpaces a ++ removeSpaces b := by
  apply String.ext
  simp [removeSpaces]

theorem removeSpaces_of_spaceFree (p : String) (h : ∀ c ∈ p.data, c.isWhitespace = false) :
    removeSpaces p = p := by
  apply String.ext
  simp only [removeSpaces]
  rw [List.filter_eq_self]
  intro c hc
  have hw := h c hc
  cases hq : c == ' ' with
  | true =>
    rw [beq_iff_eq] at hq
    subst hq
    simp at hw
  | false => simp [bne, hq]

theorem removeSpaces_joinSpaces (parts : List String)
    (h : ∀ p ∈ parts, ∀ c ∈ p.data, c.isWhitespace = false) :
    removeSpaces (joinSpaces parts) = String.join parts := by
  induction parts with
  | nil => rfl
  | cons p ps ih =>
    cases ps with
    | nil =>
      rw [joinSpaces, join_cons, join_nil, String.append_empty]
      exact removeSpaces_of_spaceFree p (h p (by simp))
    | cons q qs =>
      rw [joinSpaces, join_cons, removeSpaces_append, removeSpaces_append,
        removeSpaces_of_spaceFree p (h p (by simp)),
        ih (fun r hr => h r (by simp [hr]))]
      have hsp : removeSpaces " " = "" := rfl
      rw [hsp, String.append_empty]

theorem splitWsChars_space_cons (x : List Char) :
    splitWsChars (' ' :: x) = splitWsChars x := by
  cases x with
  | nil => rfl
  | cons d cs => rw [splitWsChars]; rfl

theorem splitWsChars_word_append (w t : List Char) (hw : w ≠ [])
    (hws : ∀ c ∈ w, c.isWhitespace = false)
    (ht : t = [] ∨ ∃ v, t = ' ' :: v) :
    splitWsChars (w ++ t) = w :: splitWsChars t := by
  induction w with
  | nil => exact absurd rfl hw
  | cons c w2 ih =>
    have hc : c.isWhitespace = false := hws c (by simp)
    cases w2 with
    | nil =>
      rcases ht with h | ⟨v, h⟩
      · subst h
        simp [splitWsChars, hc]
      · subst h
        rw [List.singleton_append, splitWsChars]
        simp [hc]
    | cons e w3 =>
      have he : e.isWhitespace = false := hws e (by simp)
      have hih := ih (by simp) (fun a ha => hws a (by simp [ha]))
      have hshape : (c :: e :: w3) ++ t = c :: (e :: (w3 ++ t)) := by simp
      rw [hshape, splitWsChars]
      have hr : splitWsChars (e :: (w3 ++ t)) = (e :: w3) :: splitWsChars t := by
        have : e :: (w3 ++ t) = (e :: w3) ++ t := by simp
        rw [this, hih]
      simp [hc, he, hr]

theorem splitWsChars_joinSpaces (parts : List String)
    (hne : ∀ p ∈ parts, p.data ≠ [])
    (hws : ∀ p ∈ parts, ∀ c ∈ p.data, c.isWhitespace = false) :
    splitWsChars (joinSpaces parts).data = parts.map String.data := by
  induction parts with
  | nil => rfl
  | cons p ps ih =>
    have hpne := hne p (by simp)
    have hpws := hws p (by simp)
    cases ps with
    | nil =>
      show splitWsChars p.data = [p.data]
      calc splitWsChars p.data
          = splitWsChars (p.data ++ []) := by rw [List.append_nil]
        _ = p.data :: splitWsChars [] :=
            splitWsChars_word_append p.data [] hpne (fun c hc => hpws c hc) (Or.inl rfl)
        _ = [p.data] := rfl
    | cons q qs =>
      rw [joinSpaces]
      have hdata : (p ++ " " ++ joinSpaces (q :: qs)).data
          = p.data ++ (' ' :: (joinSpaces (q :: qs)).data) := by
        simp
      rw [hdata,
        splitWsChars_word_append p.data (' ' :: (joinSpaces (q :: qs)).data) hpne
          (fun c hc => hpws c hc) (Or.inr ⟨_, rfl⟩),
        splitWsChars_space_cons,
        ih (fun r hr => hne r (by simp [hr])) (fun r hr => hws r (by simp [hr]))]
      rfl

theorem mk_data (s : String) : String.mk s.data = s := rfl

theorem map_mk_data (ps : List String) : (ps.map String.data).map String.mk = ps := by
  induction ps with
  | nil => rfl
  | cons a as ih => simp only [List.map_cons, mk_data, ih]

theorem splitWs_joinSpaces (parts : List String)
    (hne : ∀ p ∈ parts, p.data ≠ [])
    (hws : ∀ p ∈ parts, ∀ c ∈ p.data, c.isWhitespace = false) :
    splitWs (joinSpaces parts) = parts := by
  rw [splitWs, splitWsChars_joinSpaces parts hne hws, map_mk_data]

theorem fixTokens_all_unchanged (words : List String) (seg : String → String)
    (toks : List Token) (h : ∀ t ∈ toks, processToken words seg t = t.text_with_ws) :
    fixTokens words seg toks = joinTextWs toks := by
  rw [fixTokens, joinTextWs, List.map_congr_left h]

theorem stripWs_processToken (words : List String) (seg : String → String) (t : Token) :
    stripWs (processToken words seg t) = stripWs t.text_with_ws := by
  rw [processToken]
  split
  · split
    next hacc =>
      have h1 : removeSpaces (seg t.text) = t.text := by
        have := (Bool.and_eq_true _ _).mp hacc
        exact beq_iff_eq.mp this.1
      have h2 : stripWs (seg t.text) = stripWs t.text := by
        rw [← stripWs_removeSpaces (seg t.text), h1]
      show stripWs (seg t.text ++ t.whitespace_) = stripWs (t.text ++ t.whitespace_)
      rw [stripWs_append, stripWs_append, h2]
    next => rfl
  · rfl

theorem stripWs_fixTokens (words : List String) (seg : String → String) (toks : List Token) :
    stripWs (fixTokens words seg toks) = stripWs (joinTextWs toks) := by
  induction toks with
  | nil => rfl
  | cons t ts ih =>
    show stripWs (String.join (processToken words seg t :: ts.map (processToken words seg)))
        = stripWs (String.join (t.text_with_ws :: ts.map Token.text_with_ws))
    rw [join_cons, join_cons, stripWs_append, stripWs_append, stripWs_processToken]
    exact congrArg (fun x => stripWs t.text_with_ws ++ x) ih

theorem join_singleton (x : String) : String.join [x] = x := by
  rw [join_cons, join_nil, String.append_empty]

theorem processToken_accept (words : List String) (seg : String → String) (t : Token)
    (hel : eligible words t = true)
    (hc : (removeSpaces (seg t.text) == t.text
        && (splitWs (seg t.text)).all (fun p => words.contains p)) = true) :
    processToken words seg t = seg t.text ++ t.whitespace_ := by
  rw [processToken, if_pos hel, if_pos hc]

theorem processToken_reject (words : List String) (seg : String → String) (t : Token)
    (hel : eligible words t = true)
    (hc : (removeSpaces (seg t.text) == t.text
        && (splitWs (seg t.text)).all (fun p => words.contains p)) = false) :
    processToken words seg t = t.text ++ t.whitespace_ := by
  rw [processToken, if_pos hel, if_neg (by simp only [hc]; decide)]
  rfl

/-! ## Claim theorems for the per-token pipeline -/

/-- C1: for every token that fix_word_segmentation actually segments, the
proposed segmentation replaces the original token text exactly when its
parts concatenate (without separators) to the original token text and
every part is a dictionary member; otherwise the original token text is
retained verbatim. -/
theorem claim_C1 (words : List String) (seg : String → String) (t : Token)
    (parts : List String)
    (helig : eligible words t = true)
    (hseg : seg t.text = joinSpaces parts)
    (hne : ∀ p ∈ parts, p.data ≠ [])
    (hws : ∀ p ∈ parts, ∀ c ∈ p.data, c.isWhitespace = false) :
    processToken words seg t =
      if String.join parts = t.text ∧ ∀ p ∈ parts, p ∈ words
      then joinSpaces parts ++ t.whitespace_
      else t.text ++ t.whitespace_ := by
  have hrs := removeSpaces_joinSpaces parts hws
  have hsp := splitWs_joinSpaces parts hne hws
  rw [processToken, if_pos helig, hseg, hrs, hsp]
  have hcond : (String.join parts == t.text && parts.all fun p => words.contains p) = true
      ↔ (String.join parts = t.text ∧ ∀ p ∈ parts, p ∈ words) := by
    simp [List.all_eq_true, List.contains]
  by_cases hc : String.join parts = t.text ∧ ∀ p ∈ parts, p ∈ words
  · rw [if_pos (hcond.mpr hc), if_pos hc]
  · rw [if_neg (fun hb => hc (hcond.mp hb)), if_neg hc]
    rfl

/-- C1 witness: the concrete climate-change scenario run through the
per-token pipeline by applying the C1 theorem. -/
theorem claim_C1_witness :
    processToken ["climate", "change"] (fun _ => "climate change")
      ⟨"climatechange", " ", true, 0, "climatechange"⟩ = "climate change " := by
  have h := claim_C1 ["climate", "change"] (fun _ => "climate change")
    ⟨"climatechange", " ", true, 0, "climatechange"⟩ ["climate", "change"]
    (by decide) rfl (by decide) (by decide)
  rw [h, if_pos (by decide)]
  rfl

/-- C2: a token that is not alphabetic, or is part of a named entity, or
whose case-folded lemma is already in the dictionary word set, is passed
through unchanged, whatever segmentation the search would propose. -/
theorem claim_C2 (words : List String) (t : Token)
    (h : t.is_alpha = false ∨ t.ent_type ≠ 0 ∨ toLowerStr t.lemma_ ∈ words) :
    ∀ seg : String → String, processToken words seg t = t.text ++ t.whitespace_ := by
  intro seg
  have helig : eligible words t = false := by
    rcases h with h1 | h1 | h1
    · simp [eligible, h1]
    · simp [eligible, h1]
    · simp [eligible, List.contains, h1]
  rw [processToken, if_neg (by simp [helig])]
  rfl

/-- C2 witness: a named-entity token is emitted unchanged by applying the
C2 theorem at a concrete entity-tagged token. -/
theorem claim_C2_witness :
    processToken ["new", "york"] (fun _ => "new york")
      ⟨"NewYork", " ", true, 384, "newyork"⟩ = "NewYork " := by
  have h := claim_C2 ["new", "york"] ⟨"NewYork", " ", true, 384, "newyork"⟩
    (Or.inr (Or.inl (by decide))) (fun _ => "new york")
  rw [h]
  decide

/-- C3: every token is emitted either as the accepted parts joined by
single spaces or as its original text, in both cases followed by its
original trailing whitespace; and when no token is replaced the rendered
output equals the original text byte for byte. -/
theorem claim_C3 (tok : String → List Token) (d : FreqDict) (maxEd : Nat) (text : String)
    (htok : ∀ s, joinTextWs (tok s) = s) :
    (∀ t ∈ tok text,
       (∃ parts, segment d maxEd t.text = some parts ∧
          processToken (dictWords d) (symCorrected d maxEd) t
            = joinSpaces parts ++ t.whitespace_) ∨
       processToken (dictWords d) (symCorrected d maxEd) t = t.text ++ t.whitespace_) ∧
    ((∀ t ∈ tok text,
        processToken (dictWords d) (symCorrected d maxEd) t = t.text ++ t.whitespace_) →
      fixWordSegmentation d maxEd (tok text) = text) := by
  constructor
  · intro t ht
    rw [processToken]
    by_cases helig : eligible (dictWords d) t = true
    · rw [if_pos helig]
      cases hseg : segment d maxEd t.text with
      | none =>
        right
        have hcor : symCorrected d maxEd t.text = t.text := by rw [symCorrected, hseg]
        rw [hcor]
        split
        · rfl
        · rfl
      | some parts =>
        have hcor : symCorrected d maxEd t.text = joinSpaces parts := by
          rw [symCorrected, hseg]
        rw [hcor]
        split
        · exact Or.inl ⟨parts, rfl, rfl⟩
        · exact Or.inr rfl
    · rw [if_neg helig]
      exact Or.inr rfl
  · intro hall
    rw [fixWordSegmentation,
      fixTokens_all_unchanged (dictWords d) (symCorrected d maxEd) (tok text)
        (fun t ht => hall t ht)]
    exact htok text

/-- C3 witness: the theorem applied with a one-token tokenizer on a
non-alphabetic token, showing the pass-through shape and exact
reconstruction. -/
theorem claim_C3_witness :
    ((∀ t ∈ [(⟨"123", "", false, 0, "123"⟩ : Token)],
       (∃ parts, segment climateDict 0 t.text = some parts ∧
          processToken (dictWords climateDict) (symCorrected climateDict 0) t
            = joinSpaces parts ++ t.whitespace_) ∨
       processToken (dictWords climateDict) (symCorrected climateDict 0) t
         = t.text ++ t.whitespace_) ∧
    ((∀ t ∈ [(⟨"123", "", false, 0, "123"⟩ : Token)],
        processToken (dictWords climateDict) (symCorrected climateDict 0) t
          = t.text ++ t.whitespace_) →
      fixWordSegmentation climateDict 0 [(⟨"123", "", false, 0, "123"⟩ : Token)] = "123")) := by
  have h := claim_C3 (fun s => [(⟨s, "", false, 0, s⟩ : Token)]) climateDict 0 "123"
    (fun s => by simp [joinTextWs, Token.text_with_ws, String.join])
  exact h

set_option maxRecDepth 400000 in
/-- C4: with the dictionary holding climate at 100 and change at 80, the
eligible token climatechange at edit distance budget 0 is segmented into
the parts climate and change; the candidate is accepted and rendered as
climate space change, followed by the original trailing whitespace. -/
theorem claim_C4 :
    segment climateDict 0 "climatechange" = some ["climate", "change"] ∧
    ∀ ws : String,
      fixWordSegmentation climateDict 0
          [⟨"climatechange", ws, true, 0, "climatechange"⟩]
        = "climate change" ++ ws := by
  have hseg : symCorrected climateDict 0 "climatechange" = "climate change" := by decide
  constructor
  · decide
  · intro ws
    have hel : eligible (dictWords climateDict)
        ⟨"climatechange", ws, true, 0, "climatechange"⟩ = true := by
      show (true && ((0 : Nat) == 0)
        && !((dictWords climateDict).contains (toLowerStr "climatechange"))) = true
      decide
    have hc : (removeSpaces (symCorrected climateDict 0 "climatechange") == "climatechange"
        && (splitWs (symCorrected climateDict 0 "climatechange")).all
           (fun p => (dictWords climateDict).contains p)) = true := by
      rw [hseg]
      decide
    show String.join
        [processToken (dictWords climateDict) (symCorrected climateDict 0)
          ⟨"climatechange", ws, true, 0, "climatechange"⟩] = "climate change" ++ ws
    rw [join_singleton,
      processToken_accept (dictWords climateDict) (symCorrected climateDict 0)
        ⟨"climatechange", ws, true, 0, "climatechange"⟩ hel hc]
    exact congrArg (fun s => s ++ ws) hseg

set_option maxRecDepth 400000 in
/-- C5: with the same dictionary and budget 0, the token climatchange
(missing an e) has no lossless partition into dictionary words, the
search finds no candidate, and the token passes through unchanged. -/
theorem claim_C5 :
    segment climateDict 0 "climatchange" = none ∧
    ∀ ws : String,
      fixWordSegmentation climateDict 0
          [⟨"climatchange", ws, true, 0, "climatchange"⟩]
        = "climatchange" ++ ws := by
  have hseg : symCorrected climateDict 0 "climatchange" = "climatchange" := by decide
  constructor
  · decide
  · intro ws
    have hel : eligible (dictWords climateDict)
        ⟨"climatchange", ws, true, 0, "climatchange"⟩ = true := by
      show (true && ((0 : Nat) == 0)
        && !((dictWords climateDict).contains (toLowerStr "climatchange"))) = true
      decide
    have hc : (removeSpaces (symCorrected climateDict 0 "climatchange") == "climatchange"
        && (splitWs (symCorrected climateDict 0 "climatchange")).all
           (fun p => (dictWords climateDict).contains p)) = false := by
      rw [hseg]
      decide
    show String.join
        [processToken (dictWords climateDict) (symCorrected climateDict 0)
          ⟨"climatchange", ws, true, 0, "climatchange"⟩] = "climatchange" ++ ws
    rw [join_singleton,
      processToken_reject (dictWords climateDict) (symCorrected climateDict 0)
        ⟨"climatchange", ws, true, 0, "climatchange"⟩ hel hc]

/-- C6: on text where every token is either ineligible or gets back a
candidate identical to its own text, one application of
fix_word_segmentation leaves the text unchanged, so a second application
returns the same string as the first. -/
theorem claim_C6 (tok : String → List Token) (d : FreqDict) (maxEd : Nat) (text : String)
    (htok : ∀ s, joinTextWs (tok s) = s)
    (h : ∀ t ∈ tok text,
        eligible (dictWords d) t = false ∨ symCorrected d maxEd t.text = t.text) :
    fixText tok d maxEd (fixText tok d maxEd text) = fixText tok d maxEd text := by
  have hfix : fixText tok d maxEd text = text := by
    rw [fixText, fixWordSegmentation,
      fixTokens_all_unchanged (dictWords d) (symCorrected d maxEd) (tok text) ?_]
    · exact htok text
    · intro t ht
      rcases h t ht with h1 | h1
      · rw [processToken, if_neg (by simp [h1])]
      · rw [processToken, h1]
        split
        · split
          · rfl
          · rfl
        · rfl
  rw [hfix]
  exact hfix

/-- C6 witness: the theorem applied with a one-token tokenizer whose
tokens are never alphabetic, on concrete text. -/
theorem claim_C6_witness :
    fixText (fun s => [(⟨s, "", false, 0, s⟩ : Token)]) climateDict 0
        (fixText (fun s => [(⟨s, "", false, 0, s⟩ : Token)]) climateDict 0 "hello world")
      = fixText (fun s => [(⟨s, "", false, 0, s⟩ : Token)]) climateDict 0 "hello world" := by
  exact claim_C6 (fun s => [(⟨s, "", false, 0, s⟩ : Token)]) climateDict 0 "hello world"
    (fun s => by simp [joinTextWs, Token.text_with_ws, String.join])
    (fun t ht => by
      simp only [List.mem_singleton] at ht
      subst ht
      exact Or.inl (by decide))

/-- C10: fix_word_segmentation never adds, deletes, or alters a
non-whitespace character: the output with all whitespace removed equals
the input text with all whitespace removed, for every dictionary and
edit-distance budget. -/
theorem claim_C10 (tok : String → List Token) (d : FreqDict) (maxEd : Nat) (text : String)
    (htok : ∀ s, joinTextWs (tok s) = s) :
    stripWs (fixText tok d maxEd text) = stripWs text := by
  rw [fixText, fixWordSegmentation, stripWs_fixTokens, htok text]

/-- C10 witness: the theorem applied with a concrete one-token tokenizer
on concrete text and the scenario dictionary. -/
theorem claim_C10_witness :
    stripWs (fixText (fun s => [(⟨s, "", true, 0, s⟩ : Token)]) climateDict 0 "climatechange")
      = stripWs "climatechange" := by
  exact claim_C10 (fun s => [(⟨s, "", true, 0, s⟩ : Token)]) climateDict 0 "climatechange"
    (fun s => by simp [joinTextWs, Token.text_with_ws, String.join])

/-! ## Claims about dictionary loading and augmentation -/

theorem getCount_cons (e : String × Nat) (es : List (String × Nat)) (w : String) :
    getCount (e :: es) w = if e.1 = w then e.2 else getCount es w := by
  rw [getCount, List.find?]
  by_cases h : e.1 = w
  · simp [h, getCount]
  · have hb : (e.1 == w) = false := by simp [h]
    simp [hb, h, getCount]

theorem bumpEntry_fst (x : String) (n : Nat) (e : String × Nat) :
    (bumpEntry x n e).1 = e.1 := by
  rw [bumpEntry]
  split
  · rfl
  · rfl

theorem bumpEntry_of_eq (x : String) (n : Nat) (e : String × Nat) (h : e.1 = x) :
    bumpEntry x n e = (e.1, e.2 + n) := by
  rw [bumpEntry, if_pos (beq_iff_eq.mpr h)]

theorem bumpEntry_of_ne (x : String) (n : Nat) (e : String × Nat) (h : ¬ e.1 = x) :
    bumpEntry x n e = e := by
  rw [bumpEntry, if_neg (fun hb => h (beq_iff_eq.mp hb))]

theorem getCount_map_ne (es : List (String × Nat)) (x w : String) (n : Nat) (hne : w ≠ x) :
    getCount (es.map (bumpEntry x n)) w = getCount es w := by
  induction es with
  | nil => rfl
  | cons e es ih =>
    rw [List.map_cons, getCount_cons, getCount_cons, bumpEntry_fst]
    by_cases hew : e.1 = w
    · rw [if_pos hew, if_pos hew]
      have hex : ¬ e.1 = x := fun hh => hne (by rw [← hew, hh])
      rw [bumpEntry_of_ne x n e hex]
    · rw [if_neg hew, if_neg hew, ih]

theorem getCount_map_eq (es : List (String × Nat)) (x : String) (n : Nat)
    (hx : hasWord es x = true) :
    getCount (es.map (bumpEntry x n)) x = getCount es x + n := by
  induction es with
  | nil => simp [hasWord] at hx
  | cons e es ih =>
    rw [List.map_cons, getCount_cons, getCount_cons, bumpEntry_fst]
    by_cases hex : e.1 = x
    · rw [if_pos hex, if_pos hex, bumpEntry_of_eq x n e hex]
    · rw [if_neg hex, if_neg hex]
      have hx2 : hasWord es x = true := by
        rw [hasWord, List.any_cons] at hx
        have hb : (e.1 == x) = false := by simp [hex]
        rw [hb, Bool.false_or] at hx
        exact hx
      exact ih hx2

theorem getCount_append_of_absent (es : List (String × Nat)) (x w : String) (n : Nat)
    (hx : hasWord es x = false) :
    getCount (es ++ [(x, n)]) w
      = if w = x then getCount es w + n else getCount es w := by
  induction es with
  | nil =>
    rw [List.nil_append, getCount_cons]
    by_cases hw : w = x
    · rw [if_pos hw, if_pos hw.symm]
      have h0 : getCount [] w = 0 := rfl
      rw [h0, Nat.zero_add]
    · rw [if_neg hw, if_neg (fun hh => hw hh.symm)]
  | cons e es ih =>
    rw [hasWord, List.any_cons] at hx
    have hex : ¬ e.1 = x := by
      intro hh
      rw [beq_iff_eq.mpr hh] at hx
      simp at hx
    have hx2 : hasWord es x = false := by
      cases hq : es.any fun e => e.1 == x with
      | true => rw [hq] at hx; simp at hx
      | false => exact hq
    rw [List.cons_append, getCount_cons, getCount_cons]
    by_cases hew : e.1 = w
    · rw [if_pos hew, if_pos hew]
      by_cases hwx : w = x
      · exact absurd (by rw [hew, hwx]) hex
      · rw [if_neg hwx]
    · rw [if_neg hew, if_neg hew, ih hx2]

theorem getCount_createEntry (d : List (String × Nat)) (x : String) (n : Nat) (w : String) :
    getCount (createDictionaryEntry d x n) w
      = if w = x then getCount d w + n else getCount d w := by
  rw [createDictionaryEntry]
  by_cases hx : hasWord d x = true
  · rw [if_pos hx]
    by_cases hw : w = x
    · subst hw
      rw [getCount_map_eq d w n hx, if_pos rfl]
    · rw [getCount_map_ne d x w n hw, if_neg hw]
  · have hx2 : hasWord d x = false := by
      cases hq : hasWord d x with
      | true => exact absurd hq hx
      | false => rfl
    rw [if_neg hx, getCount_append_of_absent d x w n hx2]

theorem length_createEntry (d : List (String × Nat)) (x : String) (n : Nat) :
    (createDictionaryEntry d x n).length
      = if hasWord d x = true then d.length else d.length + 1 := by
  rw [createDictionaryEntry]
  by_cases hx : hasWord d x = true
  · simp [hx]
  · simp [hx]

/-- C7 counterexample: loading does not fail and is not surfaced as an
error.  A missing resource yields a normally constructed object with an
empty dictionary and only a printed message, and a resource with a
malformed row yields a silently truncated partial dictionary together
with the success message. -/
theorem claim_C7_counterexample :
    initSplitTokens none
      = { dict := [], message := "Dictionary failed to loaded." } ∧
    initSplitTokens (some ["climate 100", "bogus"])
      = { dict := [("climate", 100)], message := "Dictionary loaded." } := by
  constructor
  · rfl
  · decide

/-- C7 amended: SplitTokens init never raises.  With any present resource
it keeps exactly the parseable lines (silently skipping malformed ones)
and prints the success message; with a missing resource it prints the
failure message and continues with an empty dictionary. -/
theorem claim_C7 :
    (∀ lines : List String,
      initSplitTokens (some lines)
        = { dict := lines.filterMap parseLine, message := "Dictionary loaded." }) ∧
    initSplitTokens none
      = { dict := [], message := "Dictionary failed to loaded." } := by
  exact ⟨fun lines => rfl, rfl⟩

/-- C8 counterexample: update_dictionary inserts a token that is flagged
as part of a named entity (nonzero entity type), so insertion is not
conditional on the token not being a named entity. -/
theorem claim_C8_counterexample :
    updateDictionary [] [⟨"NewYork", "", true, 384, "NewYork"⟩] = [("NewYork", 1)] ∧
    (⟨"NewYork", "", true, 384, "NewYork"⟩ : Token).ent_type ≠ 0 := by
  constructor
  · rfl
  · decide

/-- C8 amended: update_dictionary adds one to the count of the token text
exactly when the token is alphabetic and longer than one character
(entity status is not consulted), inserting the word at count 1 when
absent and incrementing the existing entry, never duplicating a key. -/
theorem claim_C8 (d : List (String × Nat)) (t : Token) (w : String) :
    getCount (updateDictionary d [t]) w
      = (if t.is_alpha = true ∧ 1 < t.text.length ∧ w = t.text
         then getCount d w + 1 else getCount d w) ∧
    (updateDictionary d [t]).length
      = (if t.is_alpha = true ∧ 1 < t.text.length ∧ hasWord d t.text = false
         then d.length + 1 else d.length) := by
  have hstep : updateDictionary d [t]
      = if t.is_alpha = true ∧ 1 < t.text.length
        then createDictionaryEntry d t.text 1 else d := rfl
  constructor
  · rw [hstep]
    by_cases hcond : t.is_alpha = true ∧ 1 < t.text.length
    · rw [if_pos hcond, getCount_createEntry]
      by_cases hw : w = t.text
      · simp [hw, hcond]
      · simp [hw, hcond]
    · rw [if_neg hcond, if_neg (by tauto)]
  · rw [hstep]
    by_cases hcond : t.is_alpha = true ∧ 1 < t.text.length
    · rw [if_pos hcond, length_createEntry]
      by_cases hx : hasWord d t.text = true
      · rw [if_pos hx, if_neg (by simp [hx])]
      · have hx2 : hasWord d t.text = false := by
          cases hq : hasWord d t.text with
          | true => exact absurd hq hx
          | false => rfl
        rw [if_neg hx, if_pos ⟨hcond.1, hcond.2, hx2⟩]
    · rw [if_neg hcond, if_neg (by tauto)]

/-! ## The segmentation search contract (C9) -/

theorem mem_stringPartitions (l : List Char) :
    ∀ ps, ps ∈ stringPartitions l ↔ ps ≠ [] ∧ ps.flatten = l ∧ ∀ p ∈ ps, p ≠ [] := by
  induction l using stringPartitions.induct with
  | case1 =>
    intro ps
    constructor
    · intro h
      simp [stringPartitions] at h
    · rintro ⟨hne, hfl, hnn⟩
      cases ps with
      | nil => exact absurd rfl hne
      | cons q rest =>
        rw [List.flatten_cons] at hfl
        have hq : q = [] := by
          cases q with
          | nil => rfl
          | cons a as => simp at hfl
        exact absurd hq (hnn q (by simp))
  | case2 c =>
    intro ps
    constructor
    · intro h
      rw [stringPartitions, List.mem_singleton] at h
      subst h
      refine ⟨by simp, by simp, by simp⟩
    · rintro ⟨hne, hfl, hnn⟩
      cases ps with
      | nil => exact absurd rfl hne
      | cons q rest =>
        cases q with
        | nil => exact absurd rfl (hnn [] (by simp))
        | cons qh qt =>
          rw [List.flatten_cons, List.cons_append, List.cons_eq_cons] at hfl
          obtain ⟨h1, h2⟩ := hfl
          have hqt : qt = [] := by
            cases qt with
            | nil => rfl
            | cons a as => simp at h2
          subst hqt
          rw [List.nil_append] at h2
          have hrest : rest = [] := by
            cases rest with
            | nil => rfl
            | cons r rs =>
              rw [List.flatten_cons] at h2
              have hr : r = [] := by
                cases r with
                | nil => rfl
                | cons a as => simp at h2
              exact absurd hr (hnn r (by simp))
          subst hrest
          subst h1
          rw [stringPartitions, List.mem_singleton]
  | case3 c d cs ih =>
    intro ps
    rw [stringPartitions, List.mem_flatMap]
    constructor
    · rintro ⟨p, hp, hmem⟩
      obtain ⟨pne, pfl, pnn⟩ := (ih p).mp hp
      cases p with
      | nil => exact absurd rfl pne
      | cons piece rest =>
        have hpiece : piece ≠ [] := pnn piece (by simp)
        simp only [List.mem_cons, List.mem_singleton] at hmem
        rcases hmem with h | h | h
        · subst h
          refine ⟨by simp, ?_, ?_⟩
          · rw [List.flatten_cons, List.singleton_append, pfl]
          · intro r hr
            rcases List.mem_cons.mp hr with h1 | h1
            · subst h1; simp
            · exact pnn r h1
        · subst h
          refine ⟨by simp, ?_, ?_⟩
          · rw [List.flatten_cons] at pfl ⊢
            rw [List.cons_append, pfl]
          · intro r hr
            rcases List.mem_cons.mp hr with h1 | h1
            · subst h1; simp
            · exact pnn r (by simp [h1])
        · exact absurd h (by simp)
    · rintro ⟨hne, hfl, hnn⟩
      cases ps with
      | nil => exact absurd rfl hne
      | cons q rest =>
        cases q with
        | nil => exact absurd rfl (hnn [] (by simp))
        | cons qh qt =>
          rw [List.flatten_cons, List.cons_append, List.cons_eq_cons] at hfl
          obtain ⟨h1, h2⟩ := hfl
          subst h1
          cases qt with
          | nil =>
            rw [List.nil_append] at h2
            have hrestne : rest ≠ [] := by
              intro hh
              subst hh
              simp at h2
            have hrest : rest ∈ stringPartitions (d :: cs) :=
              (ih rest).mpr ⟨hrestne, h2, fun r hr => hnn r (by simp [hr])⟩
            cases rest with
            | nil => exact absurd rfl hrestne
            | cons piece rest2 =>
              exact ⟨piece :: rest2, hrest, by simp⟩
          | cons e qt2 =>
            have hp : (e :: qt2) :: rest ∈ stringPartitions (d :: cs) := by
              refine (ih ((e :: qt2) :: rest)).mpr ⟨by simp, ?_, ?_⟩
              · rw [List.flatten_cons]
                exact h2
              · intro r hr
                rcases List.mem_cons.mp hr with h1 | h1
                · subst h1; simp
                · exact hnn r (by simp [h1])
            exact ⟨(e :: qt2) :: rest, hp, by simp⟩

theorem keyLe_refl (a : Nat × Nat × Nat) : keyLe a a := by
  obtain ⟨a1, a2, a3⟩ := a
  simp [keyLe]

theorem keyLe_trans (a b c : Nat × Nat × Nat) (h1 : keyLe a b) (h2 : keyLe b c) :
    keyLe a c := by
  obtain ⟨a1, a2, a3⟩ := a
  obtain ⟨b1, b2, b3⟩ := b
  obtain ⟨c1, c2, c3⟩ := c
  simp [keyLe] at h1 h2 ⊢
  omega

theorem keyBetter_true_le (a b : Nat × Nat × Nat) (h : keyBetter a b = true) : keyLe a b := by
  obtain ⟨a1, a2, a3⟩ := a
  obtain ⟨b1, b2, b3⟩ := b
  simp [keyBetter] at h
  simp [keyLe]
  omega

theorem keyBetter_false_le (a b : Nat × Nat × Nat) (h : keyBetter a b = false) : keyLe b a := by
  obtain ⟨a1, a2, a3⟩ := a
  obtain ⟨b1, b2, b3⟩ := b
  simp [keyBetter] at h
  simp [keyLe]
  omega

theorem foldl_best_mem (cs : List (List (List Char) × (Nat × Nat × Nat)))
    (c : List (List Char) × (Nat × Nat × Nat)) :
    (cs.foldl (fun best q => if keyBetter q.2 best.2 then q else best) c) ∈ c :: cs := by
  induction cs generalizing c with
  | nil => simp
  | cons e es ih =>
    rw [List.foldl_cons]
    by_cases hb : keyBetter e.2 c.2 = true
    · rw [if_pos hb]
      rcases List.mem_cons.mp (ih e) with h | h
      · rw [h]; simp
      · simp [h]
    · rw [if_neg hb]
      rcases List.mem_cons.mp (ih c) with h | h
      · rw [h]; simp
      · simp [h]

theorem foldl_best_le (cs : List (List (List Char) × (Nat × Nat × Nat)))
    (c : List (List Char) × (Nat × Nat × Nat)) :
    ∀ q ∈ c :: cs,
      keyLe (cs.foldl (fun best q => if keyBetter q.2 best.2 then q else best) c).2 q.2 := by
  induction cs generalizing c with
  | nil =>
    intro q hq
    rw [List.mem_singleton] at hq
    subst hq
    exact keyLe_refl _
  | cons e es ih =>
    intro q hq
    rw [List.foldl_cons]
    by_cases hb : keyBetter e.2 c.2 = true
    · rw [if_pos hb]
      rcases List.mem_cons.mp hq with h | h
      · rw [h]
        exact keyLe_trans _ _ _ (ih e e (by simp)) (keyBetter_true_le _ _ hb)
      · rcases List.mem_cons.mp h with h1 | h1
        · rw [h1]
          exact ih e e (by simp)
        · exact ih e q (by simp [h1])
    · rw [if_neg hb]
      have hble : keyLe c.2 e.2 := keyBetter_false_le _ _ (by
        cases hq2 : keyBetter e.2 c.2 with
        | true => exact absurd hq2 hb
        | false => rfl)
      rcases List.mem_cons.mp hq with h | h
      · rw [h]
        exact ih c c (by simp)
      · rcases List.mem_cons.mp h with h1 | h1
        · rw [h1]
          exact keyLe_trans _ _ _ (ih c c (by simp)) hble
        · exact ih c q (by simp [h1])

theorem pairLe_refl (x : Nat × Nat) : pairLe x x := by
  simp [pairLe]

theorem pairLe_trans (x y z : Nat × Nat) (h1 : pairLe x y) (h2 : pairLe y z) :
    pairLe x z := by
  obtain ⟨x1, x2⟩ := x
  obtain ⟨y1, y2⟩ := y
  obtain ⟨z1, z2⟩ := z
  simp [pairLe] at h1 h2 ⊢
  omega

theorem pairLe_fst_le (x y : Nat × Nat) (h : pairLe x y) : x.1 ≤ y.1 := by
  obtain ⟨x1, x2⟩ := x
  obtain ⟨y1, y2⟩ := y
  simp [pairLe] at h
  omega

theorem betterPair_cases (b q : Nat × Nat) : betterPair b q = b ∨ betterPair b q = q := by
  rw [betterPair]
  split
  · exact Or.inr rfl
  · exact Or.inl rfl

theorem betterPair_le_left (b q : Nat × Nat) : pairLe (betterPair b q) b := by
  obtain ⟨b1, b2⟩ := b
  obtain ⟨q1, q2⟩ := q
  rw [betterPair]
  split
  next h =>
    simp at h
    simp [pairLe]
    omega
  next h => exact pairLe_refl _

theorem betterPair_le_right (b q : Nat × Nat) : pairLe (betterPair b q) q := by
  obtain ⟨b1, b2⟩ := b
  obtain ⟨q1, q2⟩ := q
  rw [betterPair]
  split
  next h => exact pairLe_refl _
  next h =>
    simp at h
    simp [pairLe]
    omega

theorem foldl_betterPair_mem (l : List (Nat × Nat)) (b : Nat × Nat) :
    l.foldl betterPair b ∈ b :: l := by
  induction l generalizing b with
  | nil => simp
  | cons e es ih =>
    rw [List.foldl_cons]
    rcases betterPair_cases b e with h | h
    · rw [h]
      rcases List.mem_cons.mp (ih b) with h1 | h1
      · rw [h1]; simp
      · simp [h1]
    · rw [h]
      rcases List.mem_cons.mp (ih e) with h1 | h1
      · rw [h1]; simp
      · simp [h1]

theorem foldl_betterPair_le (l : List (Nat × Nat)) (b : Nat × Nat) :
    ∀ q ∈ b :: l, pairLe (l.foldl betterPair b) q := by
  induction l generalizing b with
  | nil =>
    intro q hq
    rw [List.mem_singleton] at hq
    rw [hq]
    exact pairLe_refl _
  | cons e es ih =>
    intro q hq
    rw [List.foldl_cons]
    have hhead := ih (betterPair b e) (betterPair b e) (by simp)
    rcases List.mem_cons.mp hq with h | h
    · rw [h]
      exact pairLe_trans _ _ _ hhead (betterPair_le_left b e)
    · rcases List.mem_cons.mp h with h1 | h1
      · rw [h1]
        exact pairLe_trans _ _ _ hhead (betterPair_le_right b e)
      · exact ih (betterPair b e) q (by simp [h1])

theorem partBest_spec (d : FreqDict) (p : List Char) (r : Nat × Nat)
    (h : partBest d p = some r) :
    (∃ e ∈ d.entries, editDistance p e.1.data = r.1 ∧ e.2 = r.2) ∧
    ∀ e ∈ d.entries, pairLe r (editDistance p e.1.data, e.2) := by
  cases hd : d.entries with
  | nil =>
    rw [partBest, hd] at h
    exact absurd h (by simp)
  | cons e es =>
    rw [partBest, hd] at h
    have hr : r = es.foldl (fun b e2 => betterPair b (editDistance p e2.1.data, e2.2))
        (editDistance p e.1.data, e.2) := (Option.some.inj h).symm
    have hfold : es.foldl (fun b e2 => betterPair b (editDistance p e2.1.data, e2.2))
        (editDistance p e.1.data, e.2)
        = (es.map fun e2 => (editDistance p e2.1.data, e2.2)).foldl betterPair
            (editDistance p e.1.data, e.2) := (List.foldl_map _ _ _ _).symm
    rw [hfold] at hr
    constructor
    · have hmem := foldl_betterPair_mem (es.map fun e2 => (editDistance p e2.1.data, e2.2))
        (editDistance p e.1.data, e.2)
      rw [← hr] at hmem
      rcases List.mem_cons.mp hmem with h1 | h1
      · exact ⟨e, by simp, by rw [h1], by rw [h1]⟩
      · obtain ⟨e2, he2, heq⟩ := List.mem_map.mp h1
        exact ⟨e2, by simp [he2], by rw [← heq], by rw [← heq]⟩
    · intro e2 he2
      have hle := foldl_betterPair_le (es.map fun q => (editDistance p q.1.data, q.2))
        (editDistance p e.1.data, e.2)
      rw [← hr] at hle
      rcases List.mem_cons.mp he2 with h1 | h1
      · rw [h1]
        exact hle _ (by simp)
      · exact hle (editDistance p e2.1.data, e2.2)
          (List.mem_cons.mpr (Or.inr (List.mem_map.mpr ⟨e2, h1, rfl⟩)))

theorem partitionCost_some (d : FreqDict) (m : Nat) (ps : List (List Char))
    (k : Nat × Nat × Nat) (h : partitionCost d m ps = some k) :
    k = (partsDistSum d ps, ps.length, partsFreqSum d ps) ∧
    ∀ p ∈ ps, ∃ r, partBest d p = some r ∧ r.1 ≤ m := by
  induction ps generalizing k with
  | nil =>
    rw [partitionCost] at h
    have hk : k = (0, 0, 0) := (Option.some.inj h).symm
    exact ⟨by rw [hk]; rfl, by simp⟩
  | cons p ps ih =>
    rw [partitionCost] at h
    cases hb : partBest d p with
    | none =>
      simp only [hb] at h
      exact absurd h (by simp)
    | some df =>
      simp only [hb] at h
      by_cases hle : df.1 ≤ m
      · rw [if_pos hle] at h
        cases hc : partitionCost d m ps with
        | none =>
          simp only [hc] at h
          exact absurd h (by simp)
        | some k2 =>
          simp only [hc] at h
          have hk : k = (df.1 + k2.1, k2.2.1 + 1, df.2 + k2.2.2) := (Option.some.inj h).symm
          obtain ⟨hk2, hvalid⟩ := ih k2 hc
          constructor
          · rw [hk, hk2]
            have hkey : partKey d p = df := by rw [partKey, hb]; rfl
            simp [partsDistSum, partsFreqSum, hkey]
          · intro q hq
            rcases List.mem_cons.mp hq with h1 | h1
            · rw [h1]
              exact ⟨df, hb, hle⟩
            · exact hvalid q h1
      · rw [if_neg hle] at h
        exact absurd h (by simp)

theorem partitionCost_isSome_of_valid (d : FreqDict) (m : Nat) (ps : List (List Char))
    (h : ∀ p ∈ ps, ∃ r, partBest d p = some r ∧ r.1 ≤ m) :
    ∃ k, partitionCost d m ps = some k := by
  induction ps with
  | nil => exact ⟨(0, 0, 0), rfl⟩
  | cons p ps ih =>
    obtain ⟨r, hr, hle⟩ := h p (by simp)
    obtain ⟨k2, hk2⟩ := ih (fun q hq => h q (by simp [hq]))
    refine ⟨(r.1 + k2.1, k2.2.1 + 1, r.2 + k2.2.2), ?_⟩
    rw [partitionCost]
    simp only [hr]
    rw [if_pos hle]
    simp only [hk2]

theorem mem_validCandidates (d : FreqDict) (maxEd : Nat) (s : String)
    (ps : List (List Char)) (k : Nat × Nat × Nat) :
    (ps, k) ∈ validCandidates d maxEd s ↔
      ps ∈ stringPartitions s.data ∧ partitionCost d maxEd ps = some k := by
  rw [validCandidates, List.mem_filterMap]
  constructor
  · rintro ⟨qs, hqs, hmatch⟩
    cases hc : partitionCost d maxEd qs with
    | none =>
      rw [hc] at hmatch
      exact absurd hmatch (by simp)
    | some k2 =>
      rw [hc] at hmatch
      have h1 : qs = ps ∧ k2 = k := by
        have := Option.some.inj hmatch
        exact ⟨congrArg Prod.fst this, congrArg Prod.snd this⟩
      obtain ⟨hq, hk⟩ := h1
      subst hq
      subst hk
      exact ⟨hqs, hc⟩
  · rintro ⟨h1, h2⟩
    exact ⟨ps, h1, by rw [h2]⟩

theorem validCandidates_eq_nil_iff (d : FreqDict) (maxEd : Nat) (s : String) :
    validCandidates d maxEd s = [] ↔
      ∀ ps ∈ stringPartitions s.data, partitionCost d maxEd ps = none := by
  rw [validCandidates, List.filterMap_eq_nil_iff]
  constructor
  · intro h ps hps
    have h2 := h ps hps
    cases hc : partitionCost d maxEd ps with
    | none => rfl
    | some k =>
      rw [hc] at h2
      exact absurd h2 (by simp)
  · intro h ps hps
    rw [h ps hps]

theorem editDistance_eq_zero (a b : List Char) (h : editDistance a b = 0) : a = b := by
  induction a generalizing b with
  | nil =>
    cases b with
    | nil => rfl
    | cons y ys =>
      unfold editDistance at h
      rw [levenshtein_nil_cons] at h
      simp only [Levenshtein.defaultCost_insert] at h
      omega
  | cons x xs ih =>
    cases b with
    | nil =>
      unfold editDistance at h
      rw [levenshtein_cons_nil] at h
      simp only [Levenshtein.defaultCost_delete] at h
      omega
    | cons y ys =>
      unfold editDistance at h
      rw [levenshtein_cons_cons] at h
      simp only [Levenshtein.defaultCost_delete, Levenshtein.defaultCost_insert,
        Levenshtein.defaultCost_substitute] at h
      by_cases hxy : x = y
      · rw [if_pos hxy] at h
        have hC : levenshtein Levenshtein.defaultCost xs ys = 0 := by omega
        rw [hxy, ih ys hC]
      · rw [if_neg hxy] at h
        omega

theorem segment_spec (d : FreqDict) (maxEd : Nat) (s : String) (parts : List String)
    (h : segment d maxEd s = some parts) :
    ∃ ps k, parts = ps.map String.mk ∧ ps ∈ stringPartitions s.data ∧
      partitionCost d maxEd ps = some k ∧
      k = (partsDistSum d ps, ps.length, partsFreqSum d ps) ∧
      (∀ p ∈ ps, ∃ r, partBest d p = some r ∧ r.1 ≤ maxEd ∧
        (∃ e ∈ d.entries, editDistance p e.1.data = r.1 ∧ e.2 = r.2) ∧
        ∀ e ∈ d.entries, r.1 ≤ editDistance p e.1.data) ∧
      (∀ qs kq, qs ∈ stringPartitions s.data → partitionCost d maxEd qs = some kq →
        keyLe k kq) := by
  rw [segment] at h
  cases hv : validCandidates d maxEd s with
  | nil =>
    rw [hv] at h
    exact absurd h (by simp)
  | cons c cs =>
    rw [hv] at h
    have hparts : parts
        = (cs.foldl (fun best q => if keyBetter q.2 best.2 then q else best) c).1.map
            String.mk := (Option.some.inj h).symm
    have hmem := foldl_best_mem cs c
    have hle := foldl_best_le cs c
    rw [← hv] at hmem
    have hpair : ((cs.foldl (fun best q => if keyBetter q.2 best.2 then q else best) c).1,
        (cs.foldl (fun best q => if keyBetter q.2 best.2 then q else best) c).2)
        ∈ validCandidates d maxEd s := by
      rw [Prod.mk.eta]
      exact hmem
    obtain ⟨hps_mem, hcost⟩ := (mem_validCandidates d maxEd s _ _).mp hpair
    obtain ⟨hkform, hkvalid⟩ := partitionCost_some d maxEd _ _ hcost
    refine ⟨_, _, hparts, hps_mem, hcost, hkform, ?_, ?_⟩
    · intro p hp
      obtain ⟨r, hr, hrle⟩ := hkvalid p hp
      obtain ⟨hex, hmin⟩ := partBest_spec d p r hr
      refine ⟨r, hr, hrle, hex, ?_⟩
      intro e he
      exact pairLe_fst_le _ _ (hmin e he)
    · intro qs kq hqs hkq
      have hmemq : (qs, kq) ∈ validCandidates d maxEd s :=
        (mem_validCandidates d maxEd s qs kq).mpr ⟨hqs, hkq⟩
      rw [← hv] at hle
      exact hle (qs, kq) hmemq

set_option maxRecDepth 400000 in
/-- C9: the segmentation search considers exactly the partitions of the
input into nonempty contiguous pieces; it returns none precisely when no
partition keeps every part within the edit-distance budget of a
dictionary word; a returned candidate is a valid partition whose
composite cost (total minimal edit distance, then number of parts, then
total frequency, the order keyLe) is minimal among all valid partitions;
and with budget zero every returned part is an exact dictionary word. -/
theorem claim_C9 (d : FreqDict) (maxEd : Nat) (s : String) :
    (∀ ps, ps ∈ stringPartitions s.data ↔
      ps ≠ [] ∧ ps.flatten = s.data ∧ ∀ p ∈ ps, p ≠ []) ∧
    (segment d maxEd s = none ↔
      ∀ ps ∈ stringPartitions s.data, partitionCost d maxEd ps = none) ∧
    (∀ parts, segment d maxEd s = some parts →
      ∃ ps k, parts = ps.map String.mk ∧ ps ∈ stringPartitions s.data ∧
        partitionCost d maxEd ps = some k ∧
        k = (partsDistSum d ps, ps.length, partsFreqSum d ps) ∧
        (∀ p ∈ ps, ∃ r, partBest d p = some r ∧ r.1 ≤ maxEd ∧
          (∃ e ∈ d.entries, editDistance p e.1.data = r.1 ∧ e.2 = r.2) ∧
          ∀ e ∈ d.entries, r.1 ≤ editDistance p e.1.data) ∧
        (∀ qs kq, qs ∈ stringPartitions s.data → partitionCost d maxEd qs = some kq →
          keyLe k kq)) ∧
    (∀ parts, segment d 0 s = some parts → ∀ w ∈ parts, w ∈ dictWords d) := by
  refine ⟨mem_stringPartitions s.data, ?_, ?_, ?_⟩
  · constructor
    · intro h
      cases hv : validCandidates d maxEd s with
      | nil => exact (validCandidates_eq_nil_iff d maxEd s).mp hv
      | cons c cs =>
        rw [segment, hv] at h
        exact absurd h (by simp)
    · intro h
      rw [segment, (validCandidates_eq_nil_iff d maxEd s).mpr h]
  · intro parts h
    exact segment_spec d maxEd s parts h
  · intro parts h w hw
    obtain ⟨ps, k, hparts, hmem, hcost, hk, hvalid, hmin⟩ := segment_spec d 0 s parts h
    rw [hparts] at hw
    obtain ⟨p, hp, hpw⟩ := List.mem_map.mp hw
    obtain ⟨r, hr, hrle, ⟨e, he, hed, hfreq⟩, hminp⟩ := hvalid p hp
    have hr0 : r.1 = 0 := Nat.le_zero.mp hrle
    have hed0 : editDistance p e.1.data = 0 := by rw [hed, hr0]
    have hpe : p = e.1.data := editDistance_eq_zero p e.1.data hed0
    rw [← hpw, hpe, mk_data]
    exact List.mem_map.mpr ⟨e, he, rfl⟩

/-- C9 witness: the none case of the contract instantiated at a concrete
string with no valid partition. -/
theorem claim_C9_witness : segment climateDict 0 "ab" = none :=
  (claim_C9 climateDict 0 "ab").2.1.mpr (by decide)

end Resegment
